import Mathlib

/-!
Verification development for the build-file cross-reference resolution engine
of this repository (a Dockerfile language server).

The repository snapshot under review contains the test suite
(`src/test/dockerDefinition.test.ts`) and a trivial instruction subclass
(`src/src/parser/instructions/cmd.ts`), but the functional core
(`DockerDefinition.computeDefinition` and the instruction parser it relies on)
is absent.  The definitions below are therefore modelled from the design
specification (spec.md sections 3 through 7), faithful to its words, with the
repository's own test expectations used as concrete checkpoints.  Text is
embedded as `List Char`; positions are zero-based (line, character) pairs;
ranges are half-open.
-/

set_option maxRecDepth 4096

namespace Dockerfile

abbrev Chars := List Char

/-- Modelled from the spec: a zero-based (line, character) position
(spec section 6, `position: {line: uint, character: uint}`). -/
structure Pos where
  line : Nat
  character : Nat
deriving DecidableEq

/-- Modelled from the spec: a half-open range in (line, character)
coordinates (spec sections 3 and 6). -/
structure Range where
  start : Pos
  stop : Pos
deriving DecidableEq

/-- Strict document-order comparison of positions: line first, then
character (spec section 3, total order by document position). -/
def posLt (a b : Pos) : Bool :=
  a.line < b.line || (a.line == b.line && a.character < b.character)

/-- Containment of a position in a half-open character span `[s, e)`
situated on one line. -/
def inSpan (l s e : Nat) (pos : Pos) : Bool :=
  pos.line == l && s ≤ pos.character && pos.character < e

def isWSChar (c : Char) : Bool := c == ' ' || c == '\t'

def isIdentChar (c : Char) : Bool := c.isAlphanum || c == '_'

/-- Splitting of the raw document text into physical lines at newline
characters (spec section 2, Line/Offset Index). -/
def splitLinesAux (acc : Chars) : Chars → List Chars
  | [] => [acc.reverse]
  | c :: cs =>
    if c == '\n' then acc.reverse :: splitLinesAux [] cs
    else splitLinesAux (c :: acc) cs

def splitLines (text : Chars) : List Chars := splitLinesAux [] text

/-- A whitespace-delimited word of a physical line: start column and text.
The end column is `start + text.length` (half-open). -/
structure Word where
  start : Nat
  text : Chars
deriving DecidableEq

def wordEnd (w : Word) : Nat := w.start + w.text.length

/-- Scanner splitting a line into whitespace-delimited words with their
column spans.  `p` is the current column; the accumulator holds the start
column and reversed characters of the word being read. -/
def wordsAux (p : Nat) (acc : Option (Nat × Chars)) : Chars → List Word
  | [] =>
    match acc with
    | none => []
    | some (s, a) => [⟨s, a.reverse⟩]
  | c :: cs =>
    if isWSChar c then
      match acc with
      | none => wordsAux (p + 1) none cs
      | some (s, a) => ⟨s, a.reverse⟩ :: wordsAux (p + 1) none cs
    else
      match acc with
      | none => wordsAux (p + 1) (some (p, [c])) cs
      | some (s, a) => wordsAux (p + 1) (some (s, c :: a)) cs

def wordsOf (l : Chars) : List Word := wordsAux 0 none l

/-- Variable-reference token inside argument text: half-open column span
`[s, e)` covering the sigil (and braces where present) and the extracted
name (spec section 4.5 step 3). -/
structure VarTok where
  s : Nat
  e : Nat
  name : Chars
deriving DecidableEq

/-- State of the variable-token scanner: outside any token, just after a
dollar sign at column `d`, inside a bare name, or inside a braced name. -/
inductive ScanSt where
  | outside : ScanSt
  | afterDollar (d : Nat) : ScanSt
  | inName (d : Nat) (acc : Chars) : ScanSt
  | inBrace (d : Nat) (acc : Chars) : ScanSt
deriving DecidableEq

/-- Modelled from the spec: one transition of the variable-token scanner at
column `p` reading character `c`; returns emitted tokens and the next state.
Token boundary is the maximal run of identifier characters after the sigil,
including a wrapping brace pair; an empty extracted name yields no token
(spec sections 4.5 step 3 and 7). -/
def stepTok (p : Nat) (c : Char) : ScanSt → List VarTok × ScanSt
  | .outside =>
    if c == '$' then ([], .afterDollar p) else ([], .outside)
  | .afterDollar d =>
    if c == '{' then ([], .inBrace d [])
    else if isIdentChar c then ([], .inName d [c])
    else if c == '$' then ([], .afterDollar p)
    else ([], .outside)
  | .inName d acc =>
    if isIdentChar c then ([], .inName d (c :: acc))
    else if c == '$' then ([⟨d, p, acc.reverse⟩], .afterDollar p)
    else ([⟨d, p, acc.reverse⟩], .outside)
  | .inBrace d acc =>
    if isIdentChar c then ([], .inBrace d (c :: acc))
    else if c == '}' then
      (if acc.isEmpty then [] else [⟨d, p + 1, acc.reverse⟩], .outside)
    else if c == '$' then ([], .afterDollar p)
    else ([], .outside)

/-- Tokens emitted at end of text: a bare `$NAME` reaching the end of the
word is a token; an unclosed braced form is not. -/
def finTok (p : Nat) : ScanSt → List VarTok
  | .inName d acc => [⟨d, p, acc.reverse⟩]
  | _ => []

def scanAux (p : Nat) (st : ScanSt) : Chars → List VarTok
  | [] => finTok p st
  | c :: cs =>
    let r := stepTok p c st
    r.1 ++ scanAux (p + 1) r.2 cs

def varToksOfWord (w : Word) : List VarTok := scanAux w.start .outside w.text

/-- Line-classification helpers of the tokenizer (spec section 4.1):
comment lines begin with a hash after optional whitespace, blank lines are
pure whitespace. -/
def isCommentLine (l : Chars) : Bool :=
  match l.dropWhile isWSChar with
  | '#' :: _ => true
  | _ => false

def isBlankLine (l : Chars) : Bool := l.all isWSChar

/-- Modelled from the spec: a physical line continues the instruction when,
after stripping trailing whitespace, it ends with the escape character not
itself escaped — an odd-length trailing run of the escape character
(spec section 4.1). -/
def endsCont (esc : Char) (l : Chars) : Bool :=
  let r := l.reverse.dropWhile isWSChar
  (r.takeWhile (fun c => c == esc)).length % 2 == 1

/-- Content of a continuing line with the trailing escape character
removed; a non-continuing line is kept as is. -/
def contentOf (esc : Char) (l : Chars) : Chars :=
  if endsCont esc l then ((l.reverse.dropWhile isWSChar).drop 1).reverse else l

/-- Modelled from the spec: optional leading escape-character directive
comment `# escape=<char>` on the first line; when absent the escape
character defaults to backslash (spec section 4.1). -/
def directiveEscape (l : Chars) : Option Char :=
  match l.dropWhile isWSChar with
  | '#' :: r =>
    let r1 := r.dropWhile isWSChar
    if (r1.take 6).map Char.toLower == "escape".data then
      match (r1.drop 6).dropWhile isWSChar with
      | '=' :: r2 =>
        match r2.dropWhile isWSChar with
        | c :: r3 => if r3.all isWSChar then some c else none
        | [] => none
      | _ => none
    else none
  | _ => false |> fun _ => none

def escapeOf (ls : List Chars) : Char :=
  match ls with
  | [] => '\\'
  | l :: _ => (directiveEscape l).getD '\\'

/-- Modelled from the spec: one parsed instruction — keyword, header line
index, and per physical line the argument words local to that line
(spec section 3, Instruction; the keyword word of the header line is not
part of the argument). -/
structure Instr where
  keyword : Chars
  line : Nat
  argLines : List (Nat × List Word)
deriving DecidableEq

def mkInstr (i : Nat) (headerContent : Chars) (cont : List (Nat × Chars)) : Instr :=
  let hw := wordsOf headerContent
  { keyword := (hw.head?.map Word.text).getD [],
    line := i,
    argLines := (i, hw.drop 1) :: cont.map (fun q => (i + q.1, wordsOf q.2)) }

/-- Modelled from the spec: collection of the continuation lines of an
instruction whose header continues.  Comment lines inside a continuation
are skipped and do not terminate the instruction (spec section 4.1).
Returns the kept (offset, content) pairs, the number of physical lines
consumed, and the remaining lines. -/
def grabCont (esc : Char) : Nat → List Chars → List (Nat × Chars) × Nat × List Chars
  | _, [] => ([], 0, [])
  | off, l :: rest =>
    if isCommentLine l then
      let r := grabCont esc (off + 1) rest
      (r.1, r.2.1 + 1, r.2.2)
    else if endsCont esc l then
      let r := grabCont esc (off + 1) rest
      ((off, contentOf esc l) :: r.1, r.2.1 + 1, r.2.2)
    else ([(off, l)], 1, rest)

/-- Modelled from the spec: the instruction tokenizer over indexed physical
lines, a total function that skips blank and comment lines between
instructions and groups continuation lines (spec section 4.1).  `fuel` is
an upper bound on the number of lines still to process, making the
recursion structural. -/
def tokenizeFuel (esc : Char) : Nat → Nat → List Chars → List Instr
  | 0, _, _ => []
  | _ + 1, _, [] => []
  | fuel + 1, i, l :: rest =>
    if isCommentLine l || isBlankLine l then tokenizeFuel esc fuel (i + 1) rest
    else if endsCont esc l then
      let r := grabCont esc 1 rest
      mkInstr i (contentOf esc l) r.1 :: tokenizeFuel esc fuel (i + 1 + r.2.1) r.2.2
    else mkInstr i l [] :: tokenizeFuel esc fuel (i + 1) rest

def tokenize (text : Chars) : List Instr :=
  let ls := splitLines text
  tokenizeFuel (escapeOf ls) ls.length 0 ls

def toUpperChars (t : Chars) : Chars := t.map Char.toUpper

/-- Case-insensitive keyword match against the fixed instruction
vocabulary (spec section 4.1). -/
def kwIs (ins : Instr) (s : String) : Bool := toUpperChars ins.keyword == s.data

def argWordsOf (ins : Instr) : List (Nat × Word) :=
  ins.argLines.flatMap (fun q => q.2.map (fun w => (q.1, w)))

def instrLines (ins : Instr) : List Nat := ins.argLines.map (fun q => q.1)

/-- Modelled from the spec: a variable definition — name, name span local
to one physical line, and optional value span (spec section 3,
VariableDefinition). -/
structure VarDef where
  name : Chars
  line : Nat
  nameStart : Nat
  nameEnd : Nat
  valueRange : Option (Nat × Nat)
deriving DecidableEq

def firstEqAux (k : Nat) : Chars → Option Nat
  | [] => none
  | c :: cs => if c == '=' then some k else firstEqAux (k + 1) cs

/-- Definition extracted from one `name=value` word of a declaration line
(spec section 4.3 variant (a)); a word with no equals sign yields a
definition with an absent value span. -/
def pairDef (l : Nat) (w : Word) : VarDef :=
  match firstEqAux 0 w.text with
  | some k =>
    ⟨w.text.take k, l, w.start, w.start + k,
      some (w.start + k + 1, w.start + w.text.length)⟩
  | none => ⟨w.text, l, w.start, w.start + w.text.length, none⟩

def lastWordEnd (ws : List Word) : Nat :=
  match ws.getLast? with
  | some w => wordEnd w
  | none => 0

/-- Modelled from the spec: variable definitions contributed by the words
of one physical line of a declaration (spec section 4.3).  An equals sign
immediately after the first identifier selects the `name=value` variant,
each word yielding one definition; otherwise the legacy two-token form
yields exactly one definition whose value is the remainder of the line;
an identifier alone yields one definition with an absent value span. -/
def defsOfLine (l : Nat) : List Word → List VarDef
  | [] => []
  | w :: rest =>
    match firstEqAux 0 w.text with
    | some _ => (w :: rest).map (pairDef l)
    | none =>
      match rest with
      | [] => [⟨w.text, l, w.start, w.start + w.text.length, none⟩]
      | v :: vs =>
        [⟨w.text, l, w.start, w.start + w.text.length,
          some (v.start, lastWordEnd (v :: vs))⟩]

/-- Modelled from the spec: only the build-argument and environment
declarations contribute variable definitions, each physical line of a
continued declaration being processed independently (spec section 4.3). -/
def varDefsOfInstr (ins : Instr) : List VarDef :=
  if kwIs ins "ARG" || kwIs ins "ENV" then
    ins.argLines.flatMap (fun q => defsOfLine q.1 q.2)
  else []

def buildVariableIndex (instrs : List Instr) : List VarDef :=
  instrs.flatMap varDefsOfInstr

/-- Modelled from the spec: a named build stage — alias name and its span
(spec section 3, StageLabel). -/
structure StageLabel where
  name : Chars
  line : Nat
  nameStart : Nat
  nameEnd : Nat
deriving DecidableEq

/-- Modelled from the spec: a FROM instruction carrying an explicit alias
clause contributes one stage label; a FROM without an alias contributes
none (spec section 4.4). -/
def stageOfInstr (ins : Instr) : List StageLabel :=
  if kwIs ins "FROM" then
    match argWordsOf ins with
    | _ :: (_, asW) :: (l3, al) :: _ =>
      if toUpperChars asW.text == ['A', 'S'] then
        [⟨al.text, l3, al.start, al.start + al.text.length⟩]
      else []
    | _ => []
  else []

def buildStageIndex (instrs : List Instr) : List StageLabel :=
  instrs.flatMap stageOfInstr

/-- Value of a `--from=` option word of a COPY-like instruction: line,
half-open value span, and value text (spec section 4.5 step 2). -/
def fromValueOfWord (l : Nat) (w : Word) : Option (Nat × Nat × Nat × Chars) :=
  if "--from=".data.isPrefixOf w.text then
    some (l, w.start + 7, w.start + w.text.length, w.text.drop 7)
  else none

def fromValuesOfInstr (ins : Instr) : List (Nat × Nat × Nat × Chars) :=
  if kwIs ins "COPY" then
    (argWordsOf ins).filterMap (fun q => fromValueOfWord q.1 q.2)
  else []

def fromValues (instrs : List Instr) : List (Nat × Nat × Nat × Chars) :=
  instrs.flatMap fromValuesOfInstr

def copyFromValueAt (instrs : List Instr) (pos : Pos) : Option Chars :=
  ((fromValues instrs).find? (fun q => inSpan q.1 q.2.1 q.2.2.1 pos)).map
    (fun q => q.2.2.2)

def allToks (instrs : List Instr) : List (Nat × VarTok) :=
  instrs.flatMap (fun ins =>
    (argWordsOf ins).flatMap (fun q => (varToksOfWord q.2).map (fun tk => (q.1, tk))))

/-- Name of the variable definition whose name span contains the position,
when one exists.  The repository's tests require a position inside a
declaration's own name to resolve (dockerDefinition.test.ts, multiple
variables tests); the spec's resolver steps list only reference tokens, so
this clause is modelled from those tests. -/
def defOccurrenceAt (vars : List VarDef) (pos : Pos) : Option Chars :=
  (vars.find? (fun d => inSpan d.line d.nameStart d.nameEnd pos)).map
    (fun d => d.name)

def tokOccurrenceAt (instrs : List Instr) (pos : Pos) : Option Chars :=
  ((allToks instrs).find? (fun q => inSpan q.1 q.2.s q.2.e pos)).map
    (fun q => q.2.name)

/-- Name of the variable occurrence (declaration name or reference token)
under the position, when one exists (spec section 4.5 step 3). -/
def occurrenceAt (vars : List VarDef) (instrs : List Instr) (pos : Pos) : Option Chars :=
  match defOccurrenceAt vars pos with
  | some n => some n
  | none => tokOccurrenceAt instrs pos

/-- Qualification of a definition for a lookup of `name` from a reference
at `pos`: equal name and own position strictly before the reference
(spec section 4.5 step 4). -/
def varQualifies (name : Chars) (pos : Pos) (d : VarDef) : Bool :=
  d.name == name && posLt ⟨d.line, d.nameStart⟩ pos

/-- Modelled from the spec: scan of the variable index in document order
selecting the last qualifying definition (spec section 4.5 step 4). -/
def lookupVar (vars : List VarDef) (name : Chars) (pos : Pos) : Option VarDef :=
  vars.foldl (fun acc d => if varQualifies name pos d then some d else acc) none

def defRange (d : VarDef) : Range :=
  ⟨⟨d.line, d.nameStart⟩, ⟨d.line, d.nameEnd⟩⟩

def labRange (lab : StageLabel) : Range :=
  ⟨⟨lab.line, lab.nameStart⟩, ⟨lab.line, lab.nameEnd⟩⟩

def inLabel (pos : Pos) (lab : StageLabel) : Bool :=
  inSpan lab.line lab.nameStart lab.nameEnd pos

/-- Modelled from the spec: the definition resolver (spec section 4.5).
Classification of the token under the position, in priority order: a stage
alias occurrence resolves to its own span; a position inside the value of
a `--from=` option of a COPY-like instruction resolves to the exactly
matching stage label or not-found; a variable occurrence resolves through
the nearest-preceding lookup rule; anything else is not-found. -/
def computeDefinition (text : Chars) (pos : Pos) : Option Range :=
  let instrs := tokenize text
  let stages := buildStageIndex instrs
  let vars := buildVariableIndex instrs
  match stages.find? (inLabel pos) with
  | some st => some (labRange st)
  | none =>
    match copyFromValueAt instrs pos with
    | some v => (stages.find? (fun st => st.name == v)).map labRange
    | none =>
      match occurrenceAt vars instrs pos with
      | some nm => (lookupVar vars nm pos).map defRange
      | none => none

def computeDefinitionStr (s : String) (pos : Pos) : Option Range :=
  computeDefinition s.data pos

/-! Helper relations used by the ordering and disjointness lemmas, and the
concrete documents used in the claim instances (drawn from the repository
test suite dockerDefinition.test.ts). -/

def accLow (p : Nat) : Option (Nat × Chars) → Nat
  | none => p
  | some (s, _) => s

def accInv (p : Nat) : Option (Nat × Chars) → Prop
  | none => True
  | some (s, a) => s + a.length = p

def wordsDisj (w1 w2 : Word) : Prop := wordEnd w1 ≤ w2.start

def stLow (p : Nat) : ScanSt → Nat
  | .outside => p
  | .afterDollar d => d
  | .inName d _ => d
  | .inBrace d _ => d

def tokDisj (t1 t2 : VarTok) : Prop := t1.e ≤ t2.s

def neutralChar (c : Char) : Prop :=
  isIdentChar c = false ∧ (c == '$') = false ∧ (c == '{') = false ∧ (c == '}') = false

def instrBefore (a b : Instr) : Prop :=
  ∀ la ∈ instrLines a, ∀ lb ∈ instrLines b, la < lb

def defsDisj (d1 d2 : VarDef) : Prop :=
  d1.line = d2.line ∧ d1.nameEnd ≤ d2.nameStart

def varRel (d1 d2 : VarDef) : Prop :=
  d1.line < d2.line ∨ (d1.line = d2.line ∧ d1.nameEnd ≤ d2.nameStart)

def awRel (a b : Nat × Word) : Prop :=
  a.1 < b.1 ∨ (a.1 = b.1 ∧ wordEnd a.2 ≤ b.2.start)

def frRel (a b : Nat × Nat × Nat × Chars) : Prop :=
  a.1 < b.1 ∨ (a.1 = b.1 ∧ a.2.2.1 ≤ b.2.1)

def atRel (a b : Nat × VarTok) : Prop :=
  a.1 < b.1 ∨ (a.1 = b.1 ∧ a.2.e ≤ b.2.s)

def exSelf : String := "FROM node AS bootstrap"

def exMismatch : String := "FROM node AS bootstrap\nFROM node\nCOPY --from=bootstrap2 /git/bin/app ."

def exBoundary : String := "FROM node AS bootstrap   \nFROM node\nCOPY --from=bootstrap /git/bin/app ."

def exTwoToks : String := "ENV a=1\nRUN $a $a"

def exMulti : String := "ENV var=value \\\nvar2=value2 \\\nvar3=value3\nRUN echo ${var} ${var2} ${var3}"

def exNoValue : String := "ARG var\nSTOPSIGNAL ${var}\nUSER ${var}"

def exQuoteD : String := "ENV var=value\nRUN echo \"$var\""

def exQuoteS : String := "ENV var=value\nRUN echo \x27$var\x27"

def exQuoteN : String := "ENV var=value\nRUN echo $var"

def exPositional : String := "FROM node AS bootstrap\nCOPY bootstrap /git/build/"

def exArgOnly : String := "ARG var"

def exShadow : String := "ENV x=1\nENV x=2\nRUN $x"

def exTwoVars : String := "ENV var=value var2=value2\nRUN echo ${var} ${var2}"


/-! Basic lemmas about positions and spans. -/

theorem inSpan_iff {l s e : Nat} {pos : Pos} :
    inSpan l s e pos = true ↔ pos.line = l ∧ s ≤ pos.character ∧ pos.character < e := by
  simp only [inSpan, Bool.and_eq_true, decide_eq_true_iff, beq_iff_eq]
  tauto

theorem posLt_iff {a b : Pos} :
    posLt a b = true ↔ a.line < b.line ∨ (a.line = b.line ∧ a.character < b.character) := by
  simp [posLt, Bool.or_eq_true, Bool.and_eq_true, decide_eq_true_iff]

theorem posLt_mk_iff {l c : Nat} {b : Pos} :
    posLt ⟨l, c⟩ b = true ↔ l < b.line ∨ (l = b.line ∧ c < b.character) := by
  simp [posLt, Bool.or_eq_true, Bool.and_eq_true, decide_eq_true_iff]

/-! The left fold that keeps the last matching element equals the last
element of the filtered list. -/

theorem foldl_choose_last {α : Type} (p : α → Bool) :
    ∀ (l : List α) (acc : Option α),
      l.foldl (fun acc d => if p d then some d else acc) acc =
        ((l.filter p).getLast?).or acc := by
  intro l
  induction l with
  | nil => intro acc; simp
  | cons c t ih =>
    intro acc
    rw [List.foldl_cons, ih, List.filter_cons]
    by_cases h : p c = true
    · simp only [h, if_true]
      cases hft : t.filter p with
      | nil => simp
      | cons x xs =>
        rw [List.getLast?_cons_cons]
        cases hlast : (x :: xs).getLast? with
        | none => simp at hlast
        | some y => simp [Option.or]
    · simp [h]

theorem lookupVar_eq_getLast {vars : List VarDef} {name : Chars} {pos : Pos} :
    lookupVar vars name pos = (vars.filter (varQualifies name pos)).getLast? := by
  rw [lookupVar, foldl_choose_last]
  cases (vars.filter (varQualifies name pos)).getLast? <;> simp [Option.or]

/-! Geometry of the word scanner: words of a line are in increasing column
order with pairwise disjoint half-open spans. -/

theorem words_start_ge :
    ∀ (cs : Chars) (p : Nat) (acc : Option (Nat × Chars)), accInv p acc →
      ∀ w ∈ wordsAux p acc cs, accLow p acc ≤ w.start := by
  intro cs
  induction cs with
  | nil =>
    intro p acc hinv w hw
    cases acc with
    | none => simp [wordsAux] at hw
    | some sa =>
      obtain ⟨s, a⟩ := sa
      simp [wordsAux] at hw
      subst hw
      simp [accLow]
  | cons c cs ih =>
    intro p acc hinv w hw
    by_cases hws : isWSChar c = true
    · cases acc with
      | none =>
        simp [wordsAux, hws] at hw
        have := ih (p + 1) none trivial w hw
        simp [accLow] at this ⊢
        omega
      | some sa =>
        obtain ⟨s, a⟩ := sa
        simp [wordsAux, hws] at hw
        rcases hw with hw | hw
        · subst hw; simp [accLow]
        · have := ih (p + 1) none trivial w hw
          simp [accLow] at this ⊢
          simp [accInv] at hinv
          omega
    · cases acc with
      | none =>
        simp [wordsAux, hws] at hw
        have := ih (p + 1) (some (p, [c])) (by simp [accInv]) w hw
        simp [accLow] at this ⊢
        omega
      | some sa =>
        obtain ⟨s, a⟩ := sa
        simp [wordsAux, hws] at hw
        have := ih (p + 1) (some (s, c :: a)) (by simp [accInv] at hinv ⊢; omega) w hw
        simpa [accLow] using this

theorem words_pairwise :
    ∀ (cs : Chars) (p : Nat) (acc : Option (Nat × Chars)), accInv p acc →
      List.Pairwise wordsDisj (wordsAux p acc cs) := by
  intro cs
  induction cs with
  | nil =>
    intro p acc hinv
    cases acc with
    | none => simp [wordsAux]
    | some sa => obtain ⟨s, a⟩ := sa; simp [wordsAux]
  | cons c cs ih =>
    intro p acc hinv
    by_cases hws : isWSChar c = true
    · cases acc with
      | none => simpa [wordsAux, hws] using ih (p + 1) none trivial
      | some sa =>
        obtain ⟨s, a⟩ := sa
        simp [wordsAux, hws, List.pairwise_cons]
        refine ⟨?_, ih (p + 1) none trivial⟩
        intro w hw
        have hge := words_start_ge cs (p + 1) none trivial w hw
        simp [accInv] at hinv
        simp [accLow] at hge
        simp [wordsDisj, wordEnd]
        omega
    · cases acc with
      | none =>
        simpa [wordsAux, hws] using ih (p + 1) (some (p, [c])) (by simp [accInv])
      | some sa =>
        obtain ⟨s, a⟩ := sa
        simpa [wordsAux, hws] using
          ih (p + 1) (some (s, c :: a)) (by simp [accInv] at hinv ⊢; omega)

theorem wordsOf_pairwise (l : Chars) : List.Pairwise wordsDisj (wordsOf l) :=
  words_pairwise l 0 none trivial

theorem word_unique {ws : List Word} (hpw : List.Pairwise wordsDisj ws)
    {w1 w2 : Word} (h1 : w1 ∈ ws) (h2 : w2 ∈ ws) {c : Nat}
    (hc1 : w1.start ≤ c ∧ c < wordEnd w1) (hc2 : w2.start ≤ c ∧ c < wordEnd w2) :
    w1 = w2 := by
  by_contra hne
  have hsym : Symmetric (fun a b : Word => wordsDisj a b ∨ wordsDisj b a) := by
    intro a b h; tauto
  have hp := (hpw.imp (fun h => Or.inl h)).forall hsym h1 h2 hne
  rcases hp with h | h <;> simp [wordsDisj] at h <;> omega

/-! Geometry of the variable-token scanner: every token lies inside the
scanned span, tokens are pairwise disjoint, a word without a dollar sign
has no tokens, and characters that are neither identifier characters nor
scanner-significant are transparent. -/

theorem stepTok_spec (p : Nat) (c : Char) (st : ScanSt) (h : stLow p st ≤ p) :
    (∀ tk ∈ (stepTok p c st).1,
        stLow p st ≤ tk.s ∧ tk.e ≤ p + 1 ∧ tk.e ≤ stLow (p + 1) (stepTok p c st).2)
    ∧ stLow p st ≤ stLow (p + 1) (stepTok p c st).2
    ∧ stLow (p + 1) (stepTok p c st).2 ≤ p + 1
    ∧ ((stepTok p c st).1 = [] ∨ ∃ tk, (stepTok p c st).1 = [tk]) := by
  cases st <;> simp only [stepTok, stLow] at h ⊢ <;> split_ifs <;>
    simp_all [stLow] <;> omega

theorem scan_bounds :
    ∀ (cs : Chars) (p : Nat) (st : ScanSt), stLow p st ≤ p →
      ∀ tk ∈ scanAux p st cs, stLow p st ≤ tk.s ∧ tk.e ≤ p + cs.length := by
  intro cs
  induction cs with
  | nil =>
    intro p st h tk htk
    cases st with
    | outside => simp [scanAux, finTok] at htk
    | afterDollar d => simp [scanAux, finTok] at htk
    | inBrace d acc => simp [scanAux, finTok] at htk
    | inName d acc =>
      simp only [scanAux, finTok, List.mem_singleton] at htk
      subst htk
      exact ⟨Nat.le_refl _, by simp⟩
  | cons c cs ih =>
    intro p st h tk htk
    simp only [scanAux, List.mem_append] at htk
    have hs := stepTok_spec p c st h
    rcases htk with h1 | h2
    · have := hs.1 tk h1
      simp only [List.length_cons]
      omega
    · have hrec := ih (p + 1) (stepTok p c st).2 hs.2.2.1 tk h2
      have := hs.2.1
      simp only [List.length_cons]
      omega

theorem scan_pairwise :
    ∀ (cs : Chars) (p : Nat) (st : ScanSt), stLow p st ≤ p →
      List.Pairwise tokDisj (scanAux p st cs) := by
  intro cs
  induction cs with
  | nil =>
    intro p st h
    cases st <;> simp [scanAux, finTok]
  | cons c cs ih =>
    intro p st h
    have hs := stepTok_spec p c st h
    simp only [scanAux]
    rw [List.pairwise_append]
    refine ⟨?_, ih (p + 1) (stepTok p c st).2 hs.2.2.1, ?_⟩
    · rcases hs.2.2.2 with he | ⟨tk, he⟩ <;> simp [he]
    · intro t1 ht1 t2 ht2
      have h1 := hs.1 t1 ht1
      have h2 := scan_bounds cs (p + 1) (stepTok p c st).2 hs.2.2.1 t2 ht2
      simp only [tokDisj]
      omega

theorem scan_no_dollar :
    ∀ (cs : Chars) (p : Nat), (∀ c ∈ cs, c ≠ '$') → scanAux p .outside cs = [] := by
  intro cs
  induction cs with
  | nil => intro p _; simp [scanAux, finTok]
  | cons c cs ih =>
    intro p h
    have hc : (c == '$') = false := by
      simp only [beq_eq_false_iff_ne]
      exact h c (by simp)
    simp only [scanAux, stepTok, hc, Bool.false_eq_true, if_false]
    simpa using ih (p + 1) (fun x hx => h x (by simp [hx]))

theorem scan_append_neutral {q : Char} (hq : neutralChar q) :
    ∀ (cs : Chars) (p : Nat) (st : ScanSt), scanAux p st (cs ++ [q]) = scanAux p st cs := by
  obtain ⟨h1, h2, h3, h4⟩ := hq
  intro cs
  induction cs with
  | nil =>
    intro p st
    cases st <;> simp [scanAux, stepTok, finTok, h1, h2, h3, h4]
  | cons c cs ih =>
    intro p st
    simp only [List.cons_append, scanAux, List.append_eq]
    rw [ih]

theorem scan_cons_neutral {q : Char} (hq : neutralChar q) (p : Nat) (cs : Chars) :
    scanAux p .outside (q :: cs) = scanAux (p + 1) .outside cs := by
  simp [scanAux, stepTok, hq.2.1]

theorem varToks_quoted {q : Char} (hq : neutralChar q) (s : Nat) (t : Chars) :
    varToksOfWord ⟨s, q :: t ++ [q]⟩ = varToksOfWord ⟨s + 1, t⟩ := by
  show scanAux s .outside (q :: (t ++ [q])) = scanAux (s + 1) .outside t
  rw [scan_cons_neutral hq s (t ++ [q]), scan_append_neutral hq t (s + 1) .outside]

/-! Geometry of the tokenizer: continuation offsets are positive, bounded
by the number of consumed lines and strictly increasing; the physical
lines of distinct instructions are strictly separated. -/

theorem grabCont_off (esc : Char) :
    ∀ (ls : List Chars) (off : Nat), ∀ q ∈ (grabCont esc off ls).1,
      off ≤ q.1 ∧ q.1 < off + (grabCont esc off ls).2.1 := by
  intro ls
  induction ls with
  | nil => intro off q hq; simp [grabCont] at hq
  | cons l rest ih =>
    intro off q hq
    by_cases hc : isCommentLine l = true
    · simp only [grabCont, hc, if_true] at hq ⊢
      have := ih (off + 1) q hq
      omega
    · by_cases he : endsCont esc l = true
      · simp only [grabCont, hc, he, Bool.false_eq_true, if_false, if_true,
          List.mem_cons] at hq ⊢
        rcases hq with hq | hq
        · subst hq; simp
        · have := ih (off + 1) q hq
          omega
      · simp only [grabCont, hc, he, Bool.false_eq_true, if_false,
          List.mem_singleton] at hq ⊢
        subst hq; simp

theorem grabCont_pairwise (esc : Char) :
    ∀ (ls : List Chars) (off : Nat),
      List.Pairwise (fun a b : Nat × Chars => a.1 < b.1) (grabCont esc off ls).1 := by
  intro ls
  induction ls with
  | nil => intro off; simp [grabCont]
  | cons l rest ih =>
    intro off
    by_cases hc : isCommentLine l = true
    · simp only [grabCont, hc, if_true]
      exact ih (off + 1)
    · by_cases he : endsCont esc l = true
      · simp only [grabCont, hc, he, Bool.false_eq_true, if_false, if_true]
        rw [List.pairwise_cons]
        refine ⟨?_, ih (off + 1)⟩
        intro q hq
        have := grabCont_off esc rest (off + 1) q hq
        simp only
        omega
      · simp only [grabCont, hc, he, Bool.false_eq_true, if_false]
        simp

theorem instrLines_mkInstr (i : Nat) (hc : Chars) (cont : List (Nat × Chars)) :
    instrLines (mkInstr i hc cont) = i :: cont.map (fun q => i + q.1) := by
  simp [instrLines, mkInstr, List.map_map, Function.comp]

/-- Normal form of a tokenizer output instruction: every produced
instruction is `mkInstr` of a header index at least the starting index and
a continuation list with positive, strictly increasing offsets. -/
theorem tokenize_mem (esc : Char) :
    ∀ (fuel i : Nat) (ls : List Chars) (ins : Instr),
      ins ∈ tokenizeFuel esc fuel i ls →
      ∃ j hc cont, i ≤ j ∧ ins = mkInstr j hc cont ∧
        List.Pairwise (fun a b : Nat × Chars => a.1 < b.1) cont ∧
        ∀ q ∈ cont, 1 ≤ q.1 := by
  intro fuel
  induction fuel with
  | zero => intro i ls ins h; simp [tokenizeFuel] at h
  | succ fuel ih =>
    intro i ls ins h
    cases ls with
    | nil => simp [tokenizeFuel] at h
    | cons l rest =>
      by_cases hcb : (isCommentLine l || isBlankLine l) = true
      · simp only [tokenizeFuel, hcb, if_true] at h
        obtain ⟨j, hc, cont, hij, rest'⟩ := ih (i + 1) rest ins h
        exact ⟨j, hc, cont, by omega, rest'⟩
      · by_cases he : endsCont esc l = true
        · simp only [tokenizeFuel, hcb, he, Bool.false_eq_true, if_false, if_true,
            List.mem_cons] at h
          rcases h with h | h
          · refine ⟨i, contentOf esc l, (grabCont esc 1 rest).1, Nat.le_refl i, h,
              grabCont_pairwise esc rest 1, ?_⟩
            intro q hq
            exact (grabCont_off esc rest 1 q hq).1
          · obtain ⟨j, hc, cont, hij, rest'⟩ :=
              ih (i + 1 + (grabCont esc 1 rest).2.1) (grabCont esc 1 rest).2.2 ins h
            exact ⟨j, hc, cont, by omega, rest'⟩
        · simp only [tokenizeFuel, hcb, he, Bool.false_eq_true, if_false,
            List.mem_cons] at h
          rcases h with h | h
          · exact ⟨i, l, [], Nat.le_refl i, h, by simp, by simp⟩
          · obtain ⟨j, hc, cont, hij, rest'⟩ := ih (i + 1) rest ins h
            exact ⟨j, hc, cont, by omega, rest'⟩

theorem tokenize_lines_ge (esc : Char) :
    ∀ (fuel i : Nat) (ls : List Chars) (ins : Instr),
      ins ∈ tokenizeFuel esc fuel i ls → ∀ l ∈ instrLines ins, i ≤ l := by
  intro fuel i ls ins h l hl
  obtain ⟨j, hc, cont, hij, hins, _, hpos⟩ := tokenize_mem esc fuel i ls ins h
  subst hins
  rw [instrLines_mkInstr] at hl
  simp only [List.mem_cons, List.mem_map] at hl
  rcases hl with hl | ⟨q, _, hq⟩
  · omega
  · omega

theorem tokenize_pairwise (esc : Char) :
    ∀ (fuel i : Nat) (ls : List Chars),
      List.Pairwise instrBefore (tokenizeFuel esc fuel i ls) := by
  intro fuel
  induction fuel with
  | zero => intro i ls; simp [tokenizeFuel]
  | succ fuel ih =>
    intro i ls
    cases ls with
    | nil => simp [tokenizeFuel]
    | cons l rest =>
      by_cases hcb : (isCommentLine l || isBlankLine l) = true
      · simp only [tokenizeFuel, hcb, if_true]
        exact ih (i + 1) rest
      · by_cases he : endsCont esc l = true
        · simp only [tokenizeFuel, hcb, he, Bool.false_eq_true, if_false, if_true]
          rw [List.pairwise_cons]
          refine ⟨?_, ih _ _⟩
          intro b hb la hla lb hlb
          have hbnd := tokenize_lines_ge esc fuel
            (i + 1 + (grabCont esc 1 rest).2.1) (grabCont esc 1 rest).2.2 b hb lb hlb
          rw [instrLines_mkInstr] at hla
          simp only [List.mem_cons, List.mem_map] at hla
          rcases hla with hla | ⟨q, hq, hqe⟩
          · omega
          · have := grabCont_off esc rest 1 q hq
            omega
        · simp only [tokenizeFuel, hcb, he, Bool.false_eq_true, if_false]
          rw [List.pairwise_cons]
          refine ⟨?_, ih _ _⟩
          intro b hb la hla lb hlb
          have hbnd := tokenize_lines_ge esc fuel (i + 1) rest b hb lb hlb
          rw [instrLines_mkInstr] at hla
          simp only [List.mem_cons, List.mem_map] at hla
          rcases hla with hla | ⟨q, hq, hqe⟩
          · omega
          · simp at hq

/-! Derived structure of produced instructions: argument lines carry
strictly increasing physical line indices and pairwise disjoint words. -/

theorem argLines_mkInstr (i : Nat) (hc : Chars) (cont : List (Nat × Chars)) :
    (mkInstr i hc cont).argLines =
      (i, (wordsOf hc).drop 1) :: cont.map (fun q => (i + q.1, wordsOf q.2)) := rfl

theorem argLines_pairwise {esc : Char} {fuel i : Nat} {ls : List Chars} {ins : Instr}
    (h : ins ∈ tokenizeFuel esc fuel i ls) :
    List.Pairwise (fun q1 q2 : Nat × List Word => q1.1 < q2.1) ins.argLines := by
  obtain ⟨j, hc, cont, _, hins, hpw, hpos⟩ := tokenize_mem esc fuel i ls ins h
  subst hins
  rw [argLines_mkInstr, List.pairwise_cons]
  constructor
  · intro q hq
    simp only [List.mem_map] at hq
    obtain ⟨q0, hq0, hqe⟩ := hq
    have := hpos q0 hq0
    subst hqe
    simp only
    omega
  · rw [List.pairwise_map]
    refine hpw.imp ?_
    intro a b hab
    simp only
    omega

theorem argLines_words_pairwise {esc : Char} {fuel i : Nat} {ls : List Chars} {ins : Instr}
    (h : ins ∈ tokenizeFuel esc fuel i ls) :
    ∀ q ∈ ins.argLines, List.Pairwise wordsDisj q.2 := by
  obtain ⟨j, hc, cont, _, hins, _, _⟩ := tokenize_mem esc fuel i ls ins h
  subst hins
  intro q hq
  rw [argLines_mkInstr] at hq
  simp only [List.mem_cons, List.mem_map] at hq
  rcases hq with hq | ⟨q0, _, hqe⟩
  · subst hq
    exact (wordsOf_pairwise hc).sublist (List.drop_sublist 1 _)
  · subst hqe
    exact wordsOf_pairwise _

theorem instr_at_line_unique {esc : Char} {fuel i : Nat} {ls : List Chars}
    {ins1 ins2 : Instr} (h1 : ins1 ∈ tokenizeFuel esc fuel i ls)
    (h2 : ins2 ∈ tokenizeFuel esc fuel i ls) {l : Nat}
    (hl1 : l ∈ instrLines ins1) (hl2 : l ∈ instrLines ins2) : ins1 = ins2 := by
  by_contra hne
  have hpw := (tokenize_pairwise esc fuel i ls).imp
    (fun h => Or.inl h : ∀ {a b}, instrBefore a b → instrBefore a b ∨ instrBefore b a)
  have hsym : Symmetric (fun a b : Instr => instrBefore a b ∨ instrBefore b a) := by
    intro a b h; tauto
  rcases hpw.forall hsym h1 h2 hne with h | h
  · exact absurd (h l hl1 l hl2) (by omega)
  · exact absurd (h l hl2 l hl1) (by omega)

theorem argLine_at_line_unique {esc : Char} {fuel i : Nat} {ls : List Chars} {ins : Instr}
    (h : ins ∈ tokenizeFuel esc fuel i ls) {l : Nat} {ws1 ws2 : List Word}
    (h1 : (l, ws1) ∈ ins.argLines) (h2 : (l, ws2) ∈ ins.argLines) : ws1 = ws2 := by
  by_cases heq : ws1 = ws2
  · exact heq
  · exfalso
    have hne : (l, ws1) ≠ (l, ws2) := by
      intro hcon
      exact heq (congrArg Prod.snd hcon)
    have hpw := (argLines_pairwise h).imp
      (fun h => Or.inl h :
        ∀ {a b : Nat × List Word}, a.1 < b.1 → a.1 < b.1 ∨ b.1 < a.1)
    have hsym : Symmetric (fun a b : Nat × List Word => a.1 < b.1 ∨ b.1 < a.1) := by
      intro a b h; tauto
    rcases hpw.forall hsym h1 h2 hne with hlt | hlt <;> simp at hlt

theorem mem_argWordsOf {ins : Instr} {l : Nat} {w : Word} :
    (l, w) ∈ argWordsOf ins ↔ ∃ ws, (l, ws) ∈ ins.argLines ∧ w ∈ ws := by
  simp only [argWordsOf, List.mem_flatMap, List.mem_map]
  constructor
  · rintro ⟨q, hq, w0, hw0, hqe⟩
    obtain ⟨hl, hw⟩ := Prod.mk.injEq _ _ _ _ ▸ hqe
    exact ⟨q.2, by rw [← hl]; exact (by simpa using hq), by rw [← hw]; exact hw0⟩
  · rintro ⟨ws, hws, hw⟩
    exact ⟨(l, ws), hws, w, hw, rfl⟩

theorem argWord_line_mem {ins : Instr} {l : Nat} {w : Word}
    (h : (l, w) ∈ argWordsOf ins) : l ∈ instrLines ins := by
  rw [mem_argWordsOf] at h
  obtain ⟨ws, hws, _⟩ := h
  simp only [instrLines, List.mem_map]
  exact ⟨(l, ws), hws, rfl⟩

/-- Uniqueness of the argument word under a position: a position on line
`l` at character `c` lies inside the span of at most one argument word of
at most one produced instruction. -/
theorem word_at_unique {esc : Char} {fuel i : Nat} {ls : List Chars}
    {ins1 ins2 : Instr} (h1 : ins1 ∈ tokenizeFuel esc fuel i ls)
    (h2 : ins2 ∈ tokenizeFuel esc fuel i ls) {l : Nat} {w1 w2 : Word}
    (hw1 : (l, w1) ∈ argWordsOf ins1) (hw2 : (l, w2) ∈ argWordsOf ins2) {c : Nat}
    (hc1 : w1.start ≤ c ∧ c < wordEnd w1) (hc2 : w2.start ≤ c ∧ c < wordEnd w2) :
    ins1 = ins2 ∧ w1 = w2 := by
  have hinseq : ins1 = ins2 :=
    instr_at_line_unique h1 h2 (argWord_line_mem hw1) (argWord_line_mem hw2)
  subst hinseq
  obtain ⟨ws1, hws1, hmem1⟩ := mem_argWordsOf.mp hw1
  obtain ⟨ws2, hws2, hmem2⟩ := mem_argWordsOf.mp hw2
  have hwseq : ws1 = ws2 := argLine_at_line_unique h1 hws1 hws2
  subst hwseq
  have hpw := argLines_words_pairwise h1 (l, ws1) hws1
  exact ⟨rfl, word_unique hpw hmem1 hmem2 hc1 hc2⟩

/-! Spans of variable definitions, stage labels, option values and
reference tokens all sit inside argument words of their instructions. -/

theorem firstEqAux_bound :
    ∀ (t : Chars) (k0 k : Nat), firstEqAux k0 t = some k → k0 ≤ k ∧ k < k0 + t.length := by
  intro t
  induction t with
  | nil => intro k0 k h; simp [firstEqAux] at h
  | cons c cs ih =>
    intro k0 k h
    by_cases hc : (c == '=') = true
    · simp only [firstEqAux, hc, if_true, Option.some.injEq] at h
      subst h; simp
    · simp only [firstEqAux, hc, Bool.false_eq_true, if_false] at h
      have := ih (k0 + 1) k h
      simp only [List.length_cons]
      omega

theorem pairDef_spec (l : Nat) (w : Word) :
    (pairDef l w).line = l ∧ (pairDef l w).nameStart = w.start ∧
      (pairDef l w).nameEnd ≤ wordEnd w := by
  unfold pairDef
  cases heq : firstEqAux 0 w.text with
  | none => exact ⟨rfl, rfl, by simp [wordEnd]⟩
  | some k =>
    have hb := firstEqAux_bound w.text 0 k heq
    refine ⟨rfl, rfl, ?_⟩
    show w.start + k ≤ wordEnd w
    simp only [wordEnd]
    omega

theorem defsOfLine_spec {l : Nat} {ws : List Word} {d : VarDef}
    (h : d ∈ defsOfLine l ws) :
    d.line = l ∧ ∃ w ∈ ws, d.nameStart = w.start ∧ d.nameEnd ≤ wordEnd w := by
  cases ws with
  | nil => simp [defsOfLine] at h
  | cons w rest =>
    simp only [defsOfLine] at h
    cases heq : firstEqAux 0 w.text with
    | some k =>
      rw [heq] at h
      simp only [List.mem_map] at h
      obtain ⟨w0, hw0, hde⟩ := h
      obtain ⟨hl, hs, he⟩ := pairDef_spec l w0
      subst hde
      exact ⟨hl, w0, hw0, hs, he⟩
    | none =>
      rw [heq] at h
      cases rest with
      | nil =>
        simp only [List.mem_singleton] at h
        subst h
        refine ⟨rfl, w, ?_, rfl, ?_⟩
        · simp
        · simp [wordEnd]
      | cons v vs =>
        simp only [List.mem_singleton] at h
        subst h
        refine ⟨rfl, w, ?_, rfl, ?_⟩
        · simp
        · simp [wordEnd]

theorem defsOfLine_pairwise {l : Nat} {ws : List Word}
    (hws : List.Pairwise wordsDisj ws) :
    List.Pairwise defsDisj (defsOfLine l ws) := by
  cases ws with
  | nil => simp [defsOfLine]
  | cons w rest =>
    simp only [defsOfLine]
    cases heq : firstEqAux 0 w.text with
    | some k =>
      rw [List.pairwise_map]
      refine hws.imp_of_mem ?_
      intro w1 w2 _ _ hdisj
      obtain ⟨hl1, hs1, he1⟩ := pairDef_spec l w1
      obtain ⟨hl2, hs2, he2⟩ := pairDef_spec l w2
      refine ⟨by rw [hl1, hl2], ?_⟩
      simp only [wordsDisj] at hdisj
      omega
    | none =>
      cases rest <;> simp

theorem varDefs_spec {ins : Instr} {d : VarDef} (h : d ∈ varDefsOfInstr ins) :
    (kwIs ins "ARG" = true ∨ kwIs ins "ENV" = true) ∧
      ∃ w, (d.line, w) ∈ argWordsOf ins ∧ d.nameStart = w.start ∧
        d.nameEnd ≤ wordEnd w := by
  unfold varDefsOfInstr at h
  by_cases hkw : (kwIs ins "ARG" || kwIs ins "ENV") = true
  · rw [hkw, if_pos rfl] at h
    simp only [List.mem_flatMap] at h
    obtain ⟨q, hq, hd⟩ := h
    obtain ⟨hl, w, hw, hs, he⟩ := defsOfLine_spec hd
    refine ⟨by simpa [Bool.or_eq_true] using hkw, w, ?_, hs, he⟩
    rw [mem_argWordsOf]
    exact ⟨q.2, by rw [hl]; simpa using hq, hw⟩
  · rw [Bool.not_eq_true] at hkw
    rw [hkw] at h
    simp at h

theorem varDefs_line_mem {ins : Instr} {d : VarDef} (h : d ∈ varDefsOfInstr ins) :
    d.line ∈ instrLines ins := by
  obtain ⟨_, w, hw, _, _⟩ := varDefs_spec h
  exact argWord_line_mem hw

theorem varDefsOfInstr_pairwise {esc : Char} {fuel i : Nat} {ls : List Chars}
    {ins : Instr} (h : ins ∈ tokenizeFuel esc fuel i ls) :
    List.Pairwise varRel (varDefsOfInstr ins) := by
  unfold varDefsOfInstr
  by_cases hkw : (kwIs ins "ARG" || kwIs ins "ENV") = true
  · rw [hkw, if_pos rfl]
    rw [List.pairwise_flatMap]
    constructor
    · intro q hq
      refine (defsOfLine_pairwise (argLines_words_pairwise h q hq)).imp ?_
      intro d1 d2 hd
      exact Or.inr ⟨hd.1, hd.2⟩
    · refine (argLines_pairwise h).imp_of_mem ?_
      intro q1 q2 hq1 hq2 hlt d1 hd1 d2 hd2
      have h1 := (defsOfLine_spec hd1).1
      have h2 := (defsOfLine_spec hd2).1
      exact Or.inl (by omega)
  · rw [Bool.not_eq_true] at hkw
    rw [hkw]
    simp

theorem varIndex_pairwise {esc : Char} {fuel i : Nat} {ls : List Chars} :
    List.Pairwise varRel (buildVariableIndex (tokenizeFuel esc fuel i ls)) := by
  unfold buildVariableIndex
  rw [List.pairwise_flatMap]
  constructor
  · intro ins hins
    exact varDefsOfInstr_pairwise hins
  · refine (tokenize_pairwise esc fuel i ls).imp_of_mem ?_
    intro ins1 ins2 _ _ hbef d1 hd1 d2 hd2
    exact Or.inl (hbef _ (varDefs_line_mem hd1) _ (varDefs_line_mem hd2))

theorem stage_spec {ins : Instr} {lab : StageLabel} (h : lab ∈ stageOfInstr ins) :
    kwIs ins "FROM" = true ∧
      ∃ w, (lab.line, w) ∈ argWordsOf ins ∧ lab.nameStart = w.start ∧
        lab.nameEnd = wordEnd w := by
  unfold stageOfInstr at h
  by_cases hkw : kwIs ins "FROM" = true
  · rw [hkw, if_pos rfl] at h
    rcases harg : argWordsOf ins with _ | ⟨a, _ | ⟨⟨lb, asW⟩, _ | ⟨⟨l3, al⟩, rest⟩⟩⟩ <;>
      rw [harg] at h <;> simp at h
    obtain ⟨has, hlab⟩ := h
    subst hlab
    refine ⟨hkw, al, ?_, by simp, ?_⟩
    · simp
    · simp [wordEnd]
  · rw [Bool.not_eq_true] at hkw
    rw [hkw] at h
    simp at h

theorem stage_line_mem {ins : Instr} {lab : StageLabel} (h : lab ∈ stageOfInstr ins) :
    lab.line ∈ instrLines ins := by
  obtain ⟨_, w, hw, _, _⟩ := stage_spec h
  exact argWord_line_mem hw

theorem stageIndex_pairwise {esc : Char} {fuel i : Nat} {ls : List Chars} :
    List.Pairwise (fun a b : StageLabel => a.line < b.line)
      (buildStageIndex (tokenizeFuel esc fuel i ls)) := by
  unfold buildStageIndex
  rw [List.pairwise_flatMap]
  constructor
  · intro ins _
    unfold stageOfInstr
    split
    · split
      · split <;> simp
      · simp
    · simp
  · refine (tokenize_pairwise esc fuel i ls).imp_of_mem ?_
    intro ins1 ins2 _ _ hbef lab1 h1 lab2 h2
    exact hbef _ (stage_line_mem h1) _ (stage_line_mem h2)

theorem from_spec {ins : Instr} {q : Nat × Nat × Nat × Chars}
    (h : q ∈ fromValuesOfInstr ins) :
    kwIs ins "COPY" = true ∧
      ∃ w, (q.1, w) ∈ argWordsOf ins ∧ q.2.1 = w.start + 7 ∧
        q.2.2.1 = wordEnd w ∧ "--from=".data.isPrefixOf w.text = true ∧
        q.2.2.2 = w.text.drop 7 := by
  unfold fromValuesOfInstr at h
  by_cases hkw : kwIs ins "COPY" = true
  · rw [hkw, if_pos rfl] at h
    rw [List.mem_filterMap] at h
    obtain ⟨a, ha, hfa⟩ := h
    unfold fromValueOfWord at hfa
    by_cases hpre : "--from=".data.isPrefixOf a.2.text = true
    · rw [hpre, if_pos rfl, Option.some.injEq] at hfa
      subst hfa
      exact ⟨hkw, a.2, by simpa using ha, rfl, rfl, hpre, rfl⟩
    · rw [Bool.not_eq_true] at hpre
      rw [hpre] at hfa
      simp at hfa
  · rw [Bool.not_eq_true] at hkw
    rw [hkw] at h
    simp at h

theorem from_word_len {w : Word} (h : "--from=".data.isPrefixOf w.text = true) :
    7 ≤ w.text.length := by
  have := (List.isPrefixOf_iff_prefix.mp h).length_le
  simpa using this

theorem argWords_pairwise {esc : Char} {fuel i : Nat} {ls : List Chars} {ins : Instr}
    (h : ins ∈ tokenizeFuel esc fuel i ls) :
    List.Pairwise awRel (argWordsOf ins) := by
  unfold argWordsOf
  rw [List.pairwise_flatMap]
  constructor
  · intro q hq
    rw [List.pairwise_map]
    refine (argLines_words_pairwise h q hq).imp ?_
    intro w1 w2 hd
    exact Or.inr ⟨rfl, hd⟩
  · refine (argLines_pairwise h).imp_of_mem ?_
    intro q1 q2 _ _ hlt a ha b hb
    simp only [List.mem_map] at ha hb
    obtain ⟨w1, _, ha⟩ := ha
    obtain ⟨w2, _, hb⟩ := hb
    subst ha; subst hb
    exact Or.inl hlt

theorem fromValues_pairwise {esc : Char} {fuel i : Nat} {ls : List Chars} :
    List.Pairwise frRel (fromValues (tokenizeFuel esc fuel i ls)) := by
  unfold fromValues
  rw [List.pairwise_flatMap]
  constructor
  · intro ins hins
    unfold fromValuesOfInstr
    split
    · rw [List.pairwise_filterMap]
      refine (argWords_pairwise hins).imp_of_mem ?_
      intro a b _ _ hr v1 hv1 v2 hv2
      unfold fromValueOfWord at hv1 hv2
      by_cases hp1 : "--from=".data.isPrefixOf a.2.text = true
      · by_cases hp2 : "--from=".data.isPrefixOf b.2.text = true
        · rw [hp1, if_pos rfl, Option.mem_def, Option.some.injEq] at hv1
          rw [hp2, if_pos rfl, Option.mem_def, Option.some.injEq] at hv2
          subst hv1; subst hv2
          rcases hr with hr | ⟨hl, hd⟩
          · exact Or.inl hr
          · refine Or.inr ⟨hl, ?_⟩
            simp only [wordEnd] at hd ⊢
            have := from_word_len hp2
            omega
        · rw [Bool.not_eq_true] at hp2
          rw [hp2] at hv2
          simp at hv2
      · rw [Bool.not_eq_true] at hp1
        rw [hp1] at hv1
        simp at hv1
    · simp
  · refine (tokenize_pairwise esc fuel i ls).imp_of_mem ?_
    intro ins1 ins2 _ _ hbef v1 h1 v2 h2
    obtain ⟨_, w1, hw1, _⟩ := from_spec h1
    obtain ⟨_, w2, hw2, _⟩ := from_spec h2
    exact Or.inl (hbef _ (argWord_line_mem hw1) _ (argWord_line_mem hw2))

theorem tok_spec {instrs : List Instr} {l : Nat} {tk : VarTok}
    (h : (l, tk) ∈ allToks instrs) :
    ∃ ins ∈ instrs, ∃ w, (l, w) ∈ argWordsOf ins ∧ tk ∈ varToksOfWord w ∧
      w.start ≤ tk.s ∧ tk.e ≤ wordEnd w := by
  unfold allToks at h
  simp only [List.mem_flatMap, List.mem_map] at h
  obtain ⟨ins, hins, q, hq, tk0, htk0, hqe⟩ := h
  obtain ⟨hl, htk⟩ := Prod.mk.injEq _ _ _ _ ▸ hqe
  subst hl; subst htk
  have hb := scan_bounds q.2.text q.2.start .outside (Nat.le_refl _) tk0 htk0
  refine ⟨ins, hins, q.2, by simpa using hq, htk0, ?_, ?_⟩
  · simpa [stLow] using hb.1
  · simpa [wordEnd] using hb.2

theorem allToks_pairwise {esc : Char} {fuel i : Nat} {ls : List Chars} :
    List.Pairwise atRel (allToks (tokenizeFuel esc fuel i ls)) := by
  unfold allToks
  rw [List.pairwise_flatMap]
  constructor
  · intro ins hins
    rw [List.pairwise_flatMap]
    constructor
    · intro q _
      rw [List.pairwise_map]
      refine (scan_pairwise q.2.text q.2.start .outside (Nat.le_refl _)).imp ?_
      intro t1 t2 hd
      exact Or.inr ⟨rfl, hd⟩
    · refine (argWords_pairwise hins).imp_of_mem ?_
      intro a b _ _ hr x hx y hy
      simp only [List.mem_map] at hx hy
      obtain ⟨t1, ht1, hx⟩ := hx
      obtain ⟨t2, ht2, hy⟩ := hy
      subst hx; subst hy
      have hb1 := scan_bounds a.2.text a.2.start .outside (Nat.le_refl _) t1 ht1
      have hb2 := scan_bounds b.2.text b.2.start .outside (Nat.le_refl _) t2 ht2
      rcases hr with hr | ⟨hl, hd⟩
      · exact Or.inl hr
      · refine Or.inr ⟨hl, ?_⟩
        show t1.e ≤ t2.s
        simp only [stLow] at hb1 hb2
        simp only [wordEnd] at hb1 hb2 hd
        omega
  · refine (tokenize_pairwise esc fuel i ls).imp_of_mem ?_
    intro ins1 ins2 _ _ hbef x hx y hy
    simp only [List.mem_flatMap, List.mem_map] at hx hy
    obtain ⟨q1, hq1, t1, _, hx⟩ := hx
    obtain ⟨q2, hq2, t2, _, hy⟩ := hy
    subst hx; subst hy
    exact Or.inl (hbef _ (argWord_line_mem (by simpa using hq1)) _
      (argWord_line_mem (by simpa using hq2)))

/-- Two members of a pairwise-related list that mutually fail the
relation are equal. -/
theorem pairwise_unique_of_mem {α : Type} {R : α → α → Prop} {l : List α}
    (hpw : List.Pairwise R l) {a b : α} (ha : a ∈ l) (hb : b ∈ l)
    (hab : ¬R a b) (hba : ¬R b a) : a = b := by
  by_contra hne
  have hsym : Symmetric (fun x y => R x y ∨ R y x) := by
    intro x y h; tauto
  rcases (hpw.imp (fun h => Or.inl h)).forall hsym ha hb hne with h | h <;> tauto

/-! Resolver-level equations and keyword exclusivity. -/

theorem tokenize_eq (text : Chars) :
    tokenize text =
      tokenizeFuel (escapeOf (splitLines text)) (splitLines text).length 0
        (splitLines text) := rfl

theorem kw_conflict {ins : Instr} {s1 s2 : String} (h1 : kwIs ins s1 = true)
    (h2 : kwIs ins s2 = true) (hne : s1.data ≠ s2.data) : False := by
  unfold kwIs at h1 h2
  exact hne ((eq_of_beq h1).symm.trans (eq_of_beq h2))

theorem computeDefinition_stage {text : Chars} {pos : Pos} {st : StageLabel}
    (h : (buildStageIndex (tokenize text)).find? (inLabel pos) = some st) :
    computeDefinition text pos = some (labRange st) := by
  simp only [computeDefinition]
  rw [h]

theorem computeDefinition_from {text : Chars} {pos : Pos} {v : Chars}
    (h1 : (buildStageIndex (tokenize text)).find? (inLabel pos) = none)
    (h2 : copyFromValueAt (tokenize text) pos = some v) :
    computeDefinition text pos =
      ((buildStageIndex (tokenize text)).find? (fun st => st.name == v)).map labRange := by
  simp only [computeDefinition]
  rw [h1, h2]

theorem computeDefinition_var {text : Chars} {pos : Pos} {name : Chars}
    (h1 : (buildStageIndex (tokenize text)).find? (inLabel pos) = none)
    (h2 : copyFromValueAt (tokenize text) pos = none)
    (h3 : occurrenceAt (buildVariableIndex (tokenize text)) (tokenize text) pos = some name) :
    computeDefinition text pos =
      (lookupVar (buildVariableIndex (tokenize text)) name pos).map defRange := by
  simp only [computeDefinition]
  rw [h1, h2, h3]

theorem computeDefinition_notFound {text : Chars} {pos : Pos}
    (h1 : (buildStageIndex (tokenize text)).find? (inLabel pos) = none)
    (h2 : copyFromValueAt (tokenize text) pos = none)
    (h3 : occurrenceAt (buildVariableIndex (tokenize text)) (tokenize text) pos = none) :
    computeDefinition text pos = none := by
  simp only [computeDefinition]
  rw [h1, h2, h3]

theorem mem_buildVariableIndex {instrs : List Instr} {d : VarDef} :
    d ∈ buildVariableIndex instrs ↔ ∃ ins ∈ instrs, d ∈ varDefsOfInstr ins := by
  simp [buildVariableIndex]

theorem mem_buildStageIndex {instrs : List Instr} {lab : StageLabel} :
    lab ∈ buildStageIndex instrs ↔ ∃ ins ∈ instrs, lab ∈ stageOfInstr ins := by
  simp [buildStageIndex]

theorem mem_fromValues {instrs : List Instr} {q : Nat × Nat × Nat × Chars} :
    q ∈ fromValues instrs ↔ ∃ ins ∈ instrs, q ∈ fromValuesOfInstr ins := by
  simp [fromValues]

/-! A position inside any resolvable span lies inside an argument word of
the owning instruction. -/

theorem word_of_label {instrs : List Instr} {pos : Pos} {lab : StageLabel}
    (hlab : lab ∈ buildStageIndex instrs) (hcon : inLabel pos lab = true) :
    ∃ ins ∈ instrs, kwIs ins "FROM" = true ∧
      ∃ w, (pos.line, w) ∈ argWordsOf ins ∧ w.start ≤ pos.character ∧
        pos.character < wordEnd w := by
  obtain ⟨ins, hins, hl⟩ := mem_buildStageIndex.mp hlab
  obtain ⟨hkw, w, hw, hs, he⟩ := stage_spec hl
  rw [inLabel, inSpan_iff] at hcon
  refine ⟨ins, hins, hkw, w, ?_, by omega, by omega⟩
  rw [hcon.1]
  exact hw

theorem word_of_def {instrs : List Instr} {pos : Pos} {d : VarDef}
    (hd : d ∈ buildVariableIndex instrs)
    (hcon : inSpan d.line d.nameStart d.nameEnd pos = true) :
    ∃ ins ∈ instrs, (kwIs ins "ARG" = true ∨ kwIs ins "ENV" = true) ∧
      ∃ w, (pos.line, w) ∈ argWordsOf ins ∧ w.start ≤ pos.character ∧
        pos.character < wordEnd w := by
  obtain ⟨ins, hins, hd1⟩ := mem_buildVariableIndex.mp hd
  obtain ⟨hkw, w, hw, hs, he⟩ := varDefs_spec hd1
  rw [inSpan_iff] at hcon
  refine ⟨ins, hins, hkw, w, ?_, by omega, by omega⟩
  rw [hcon.1]
  exact hw

theorem word_of_from {instrs : List Instr} {pos : Pos} {fv : Nat × Nat × Nat × Chars}
    (hfv : fv ∈ fromValues instrs)
    (hcon : inSpan fv.1 fv.2.1 fv.2.2.1 pos = true) :
    ∃ ins ∈ instrs, kwIs ins "COPY" = true ∧
      ∃ w, (pos.line, w) ∈ argWordsOf ins ∧
        "--from=".data.isPrefixOf w.text = true ∧ w.start ≤ pos.character ∧
        pos.character < wordEnd w := by
  obtain ⟨ins, hins, hf⟩ := mem_fromValues.mp hfv
  obtain ⟨hkw, w, hw, hs, he, hpre, _⟩ := from_spec hf
  rw [inSpan_iff] at hcon
  refine ⟨ins, hins, hkw, w, ?_, hpre, by omega, by omega⟩
  rw [hcon.1]
  exact hw

theorem word_of_tok {instrs : List Instr} {pos : Pos} {l : Nat} {tk : VarTok}
    (htk : (l, tk) ∈ allToks instrs) (hcon : inSpan l tk.s tk.e pos = true) :
    ∃ ins ∈ instrs, ∃ w, (pos.line, w) ∈ argWordsOf ins ∧ tk ∈ varToksOfWord w ∧
      w.start ≤ pos.character ∧ pos.character < wordEnd w := by
  obtain ⟨ins, hins, w, hw, htkw, hs, he⟩ := tok_spec htk
  rw [inSpan_iff] at hcon
  refine ⟨ins, hins, w, ?_, htkw, by omega, by omega⟩
  rw [hcon.1]
  exact hw

/-! Exclusion lemmas: when the position sits inside an argument word of a
known instruction, resolver steps that would require a word of a different
kind return nothing. -/

theorem stage_find_none_of_word {esc : Char} {fuel i : Nat} {ls : List Chars}
    {pos : Pos} {ins : Instr} {w : Word}
    (hins : ins ∈ tokenizeFuel esc fuel i ls)
    (hw : (pos.line, w) ∈ argWordsOf ins)
    (hc : w.start ≤ pos.character ∧ pos.character < wordEnd w)
    (hnf : kwIs ins "FROM" = false) :
    (buildStageIndex (tokenizeFuel esc fuel i ls)).find? (inLabel pos) = none := by
  rw [List.find?_eq_none]
  intro lab hlab hcon
  obtain ⟨ins2, hins2, hkw2, w2, hw2, hc2s, hc2e⟩ := word_of_label hlab hcon
  obtain ⟨hinseq, _⟩ := word_at_unique hins2 hins hw2 hw ⟨hc2s, hc2e⟩ hc
  subst hinseq
  rw [hkw2] at hnf
  exact Bool.true_eq_false ▸ hnf

theorem from_none_of_word {esc : Char} {fuel i : Nat} {ls : List Chars}
    {pos : Pos} {ins : Instr} {w : Word}
    (hins : ins ∈ tokenizeFuel esc fuel i ls)
    (hw : (pos.line, w) ∈ argWordsOf ins)
    (hc : w.start ≤ pos.character ∧ pos.character < wordEnd w)
    (hcase : kwIs ins "COPY" = false ∨ "--from=".data.isPrefixOf w.text = false) :
    copyFromValueAt (tokenizeFuel esc fuel i ls) pos = none := by
  unfold copyFromValueAt
  rw [Option.map_eq_none']
  rw [List.find?_eq_none]
  intro fv hfv hcon
  obtain ⟨ins2, hins2, hkw2, w2, hw2, hpre2, hc2s, hc2e⟩ := word_of_from hfv hcon
  obtain ⟨hinseq, hweq⟩ := word_at_unique hins2 hins hw2 hw ⟨hc2s, hc2e⟩ hc
  subst hinseq
  subst hweq
  rcases hcase with hcase | hcase
  · rw [hkw2] at hcase
    exact Bool.true_eq_false ▸ hcase
  · rw [hpre2] at hcase
    exact Bool.true_eq_false ▸ hcase

theorem defOcc_none_of_word {esc : Char} {fuel i : Nat} {ls : List Chars}
    {pos : Pos} {ins : Instr} {w : Word}
    (hins : ins ∈ tokenizeFuel esc fuel i ls)
    (hw : (pos.line, w) ∈ argWordsOf ins)
    (hc : w.start ≤ pos.character ∧ pos.character < wordEnd w)
    (hkw : kwIs ins "ARG" = false ∧ kwIs ins "ENV" = false) :
    defOccurrenceAt (buildVariableIndex (tokenizeFuel esc fuel i ls)) pos = none := by
  unfold defOccurrenceAt
  rw [Option.map_eq_none']
  rw [List.find?_eq_none]
  intro d hd hcon
  obtain ⟨ins2, hins2, hkw2, w2, hw2, hc2s, hc2e⟩ := word_of_def hd hcon
  obtain ⟨hinseq, _⟩ := word_at_unique hins2 hins hw2 hw ⟨hc2s, hc2e⟩ hc
  subst hinseq
  rcases hkw2 with hkw2 | hkw2
  · rw [hkw2] at hkw
    exact Bool.true_eq_false ▸ hkw.1
  · rw [hkw2] at hkw
    exact Bool.true_eq_false ▸ hkw.2

theorem tokOcc_none_of_word {esc : Char} {fuel i : Nat} {ls : List Chars}
    {pos : Pos} {ins : Instr} {w : Word}
    (hins : ins ∈ tokenizeFuel esc fuel i ls)
    (hw : (pos.line, w) ∈ argWordsOf ins)
    (hc : w.start ≤ pos.character ∧ pos.character < wordEnd w)
    (hnd : ∀ c ∈ w.text, c ≠ '$') :
    tokOccurrenceAt (tokenizeFuel esc fuel i ls) pos = none := by
  unfold tokOccurrenceAt
  rw [Option.map_eq_none']
  rw [List.find?_eq_none]
  intro q hq hcon
  obtain ⟨ins2, hins2, w2, hw2, htkw, hc2s, hc2e⟩ :=
    word_of_tok (show (q.1, q.2) ∈ _ from by simpa using hq) (by simpa using hcon)
  obtain ⟨hinseq, hweq⟩ := word_at_unique hins2 hins hw2 hw ⟨hc2s, hc2e⟩ hc
  subst hinseq
  subst hweq
  rw [show varToksOfWord w2 = [] from scan_no_dollar w2.text w2.start hnd] at htkw
  exact absurd htkw (List.not_mem_nil _)

/-! Claim theorems. -/

/-- Claim C5: for every document text and every zero-based (line, character)
position, computeDefinition terminates (it is a total Lean function, defined
without any partiality) and returns either a Location (some range) or the
uniform not-found value (none); no error outcome exists, including on
malformed, mid-edit, or out-of-range input, since the function is total
over all character lists and all positions. -/
theorem C5_resolution_total (text : Chars) (pos : Pos) :
    computeDefinition text pos = none ∨ ∃ r : Range, computeDefinition text pos = some r := by
  cases h : computeDefinition text pos with
  | none => exact Or.inl rfl
  | some r => exact Or.inr ⟨r, rfl⟩

/-- Claim C2: stage alias self-location — for every FROM instruction
carrying an explicit alias whose name occupies range R (a stage label of
the document's stage index), calling computeDefinition at any position
inside R returns a Location whose range is R itself. -/
theorem C2_stage_alias_self_location {text : Chars} {pos : Pos} {lab : StageLabel}
    (hlab : lab ∈ buildStageIndex (tokenize text))
    (hpos : inLabel pos lab = true) :
    computeDefinition text pos = some (labRange lab) := by
  have hpws : List.Pairwise (fun a b : StageLabel => a.line < b.line)
      (buildStageIndex (tokenize text)) := by
    rw [tokenize_eq]; exact stageIndex_pairwise
  have hsome : ((buildStageIndex (tokenize text)).find? (inLabel pos)).isSome = true :=
    List.find?_isSome.mpr ⟨lab, hlab, hpos⟩
  obtain ⟨st, hst⟩ := Option.isSome_iff_exists.mp hsome
  have hmem := List.mem_of_find?_eq_some hst
  have hp := List.find?_some hst
  rw [inLabel, inSpan_iff] at hp hpos
  have heq : st = lab := pairwise_unique_of_mem hpws hmem hlab (by omega) (by omega)
  subst heq
  exact computeDefinition_stage hst

/-- Witness for C2 at the document "FROM node AS bootstrap": the alias
occupies [13,22) on line 0 and a query at character 17 returns that very
range. -/
theorem C2_witness :
    (⟨"bootstrap".data, 0, 13, 22⟩ : StageLabel) ∈
        buildStageIndex (tokenize exSelf.data) ∧
      inLabel ⟨0, 17⟩ (⟨"bootstrap".data, 0, 13, 22⟩ : StageLabel) = true ∧
      computeDefinition exSelf.data ⟨0, 17⟩ =
        some (labRange ⟨"bootstrap".data, 0, 13, 22⟩) :=
  ⟨by decide, by decide, C2_stage_alias_self_location (by decide) (by decide)⟩

/-- Claim C7: a declaration consisting of an identifier only (no equals
sign) still defines the variable — it yields a VariableDefinition with an
absent value range — and in the document "ARG var(newline)STOPSIGNAL
(dollar-brace)var(brace)(newline)USER (dollar-brace)var(brace)" queries
inside either later reference return line 0 columns [4,7). -/
theorem C7_no_value_definition (l : Nat) (w : Word)
    (hne : firstEqAux 0 w.text = none) :
    defsOfLine l [w] = [⟨w.text, l, w.start, w.start + w.text.length, none⟩]
    ∧ buildVariableIndex (tokenize exNoValue.data) = [⟨"var".data, 0, 4, 7, none⟩]
    ∧ computeDefinition exNoValue.data ⟨1, 13⟩ = some ⟨⟨0, 4⟩, ⟨0, 7⟩⟩
    ∧ computeDefinition exNoValue.data ⟨2, 7⟩ = some ⟨⟨0, 4⟩, ⟨0, 7⟩⟩ := by
  refine ⟨?_, by decide, by decide, by decide⟩
  simp [defsOfLine, hne]

/-- Witness for C7 at the single word "var" starting at column 4 of line 0. -/
theorem C7_witness :
    firstEqAux 0 "var".data = none ∧
      defsOfLine 0 [⟨4, "var".data⟩] = [⟨"var".data, 0, 4, 7, none⟩] :=
  ⟨by decide, (C7_no_value_definition 0 ⟨4, "var".data⟩ (by decide)).1⟩

/-- Claim C4: multi-line continuation independence — every
VariableDefinition of the index takes its line from one single argument
line of its instruction and its name span lies within one word of that
very line (definitions are never merged across physical lines), and the
three-line continued ENV declaration yields definitions on lines 0, 1
and 2 to which the later references resolve. -/
theorem C4_multiline_independence :
    (∀ (text : Chars) (d : VarDef), d ∈ buildVariableIndex (tokenize text) →
      ∃ ins ∈ tokenize text, ∃ q ∈ ins.argLines, d.line = q.1 ∧
        ∃ w ∈ q.2, d.nameStart = w.start ∧ d.nameEnd ≤ wordEnd w)
    ∧ buildVariableIndex (tokenize exMulti.data) =
        [⟨"var".data, 0, 4, 7, some (8, 13)⟩,
         ⟨"var2".data, 1, 0, 4, some (5, 11)⟩,
         ⟨"var3".data, 2, 0, 4, some (5, 11)⟩]
    ∧ computeDefinition exMulti.data ⟨3, 12⟩ = some ⟨⟨0, 4⟩, ⟨0, 7⟩⟩
    ∧ computeDefinition exMulti.data ⟨3, 20⟩ = some ⟨⟨1, 0⟩, ⟨1, 4⟩⟩
    ∧ computeDefinition exMulti.data ⟨3, 28⟩ = some ⟨⟨2, 0⟩, ⟨2, 4⟩⟩ := by
  refine ⟨?_, by decide, by decide, by decide, by decide⟩
  intro text d hd
  obtain ⟨ins, hins, hdv⟩ := mem_buildVariableIndex.mp hd
  refine ⟨ins, hins, ?_⟩
  unfold varDefsOfInstr at hdv
  by_cases hkw : (kwIs ins "ARG" || kwIs ins "ENV") = true
  · rw [hkw, if_pos rfl] at hdv
    simp only [List.mem_flatMap] at hdv
    obtain ⟨q, hq, hdl⟩ := hdv
    obtain ⟨hl, w, hw, hs, he⟩ := defsOfLine_spec hdl
    exact ⟨q, hq, hl, w, hw, hs, he⟩
  · rw [Bool.not_eq_true] at hkw
    rw [hkw] at hdv
    simp at hdv

/-- Witness for C4 at the definition of var2 produced by the second
physical line of the continued declaration. -/
theorem C4_witness :
    ∃ ins ∈ tokenize exMulti.data, ∃ q ∈ ins.argLines,
      (⟨"var2".data, 1, 0, 4, some (5, 11)⟩ : VarDef).line = q.1 ∧
      ∃ w ∈ q.2, (⟨"var2".data, 1, 0, 4, some (5, 11)⟩ : VarDef).nameStart = w.start ∧
        (⟨"var2".data, 1, 0, 4, some (5, 11)⟩ : VarDef).nameEnd ≤ wordEnd w :=
  C4_multiline_independence.1 exMulti.data ⟨"var2".data, 1, 0, 4, some (5, 11)⟩ (by decide)

/-- Claim C8: quoting context is not modeled — the variable-token scanner
treats a quote character (any character that is neither an identifier
character nor scanner-significant) as transparent, so a word wrapped in
quotes carries exactly the tokens of the unwrapped word shifted by one
column, and the double-quoted, single-quoted, and unquoted reference
documents all resolve to the same definition of var. -/
theorem C8_quoting_not_modeled :
    (∀ (q : Char), neutralChar q → ∀ (s : Nat) (t : Chars),
      varToksOfWord ⟨s, q :: t ++ [q]⟩ = varToksOfWord ⟨s + 1, t⟩)
    ∧ computeDefinition exQuoteD.data ⟨1, 12⟩ = some ⟨⟨0, 4⟩, ⟨0, 7⟩⟩
    ∧ computeDefinition exQuoteS.data ⟨1, 12⟩ = some ⟨⟨0, 4⟩, ⟨0, 7⟩⟩
    ∧ computeDefinition exQuoteN.data ⟨1, 11⟩ = some ⟨⟨0, 4⟩, ⟨0, 7⟩⟩ := by
  refine ⟨?_, by decide, by decide, by decide⟩
  intro q hq s t
  exact varToks_quoted hq s t

/-- Witness for C8 at the double quote around the word containing the
reference of var. -/
theorem C8_witness :
    neutralChar '"' ∧
      varToksOfWord ⟨9, '"' :: "$var".data ++ ['"']⟩ = varToksOfWord ⟨10, "$var".data⟩ :=
  ⟨⟨by decide, by decide, by decide, by decide⟩,
    C8_quoting_not_modeled.1 '"' ⟨by decide, by decide, by decide, by decide⟩ 9 "$var".data⟩

/-- Counterexample to C6 as stated: in "ENV a=1(newline)RUN (dollar)a
(dollar)a" the first reference token occupies [4,6) on line 1, yet a query
at character 8 — at or beyond the end 6 on that same line — is found (it
hits the second token), so "a query at character e or beyond on that line
returns not-found" fails. -/
theorem C6_counterexample :
    ((1, (⟨4, 6, "a".data⟩ : VarTok)) ∈ allToks (tokenize exTwoToks.data))
    ∧ 6 ≤ 8
    ∧ computeDefinition exTwoToks.data ⟨1, 8⟩ = some ⟨⟨0, 4⟩, ⟨0, 5⟩⟩ := by
  decide

/-- Claim C6 (amended): all ranges are half-open [start, end); a query at
a position lying inside no resolvable token — no stage-alias name span, no
COPY --from value span, no declaration-name span and no variable reference
token — returns not-found.  In particular a query at or beyond a token's
end character that no other token covers is not-found, while a query at
e-1 is inside the token and resolves (witnessed at the alias span
[13,22): character 22 and beyond not-found, character 21 found). -/
theorem C6_boundary_exclusivity {text : Chars} {pos : Pos}
    (h1 : ∀ lab ∈ buildStageIndex (tokenize text), inLabel pos lab = false)
    (h2 : ∀ fv ∈ fromValues (tokenize text), inSpan fv.1 fv.2.1 fv.2.2.1 pos = false)
    (h3 : ∀ d ∈ buildVariableIndex (tokenize text),
        inSpan d.line d.nameStart d.nameEnd pos = false)
    (h4 : ∀ q ∈ allToks (tokenize text), inSpan q.1 q.2.s q.2.e pos = false) :
    computeDefinition text pos = none := by
  apply computeDefinition_notFound
  · rw [List.find?_eq_none]
    intro lab hl
    simp [h1 lab hl]
  · unfold copyFromValueAt
    rw [Option.map_eq_none', List.find?_eq_none]
    intro fv hfv
    simp [h2 fv hfv]
  · unfold occurrenceAt
    have hdef : defOccurrenceAt (buildVariableIndex (tokenize text)) pos = none := by
      unfold defOccurrenceAt
      rw [Option.map_eq_none', List.find?_eq_none]
      intro d hd
      simp [h3 d hd]
    have htok : tokOccurrenceAt (tokenize text) pos = none := by
      unfold tokOccurrenceAt
      rw [Option.map_eq_none', List.find?_eq_none]
      intro q hq
      simp [h4 q hq]
    rw [hdef, htok]

/-- Witness for C6 (amended) at the trailing-whitespace alias document:
character 22 after the alias [13,22) is not-found, 21 resolves, 24 is
not-found. -/
theorem C6_witness :
    computeDefinition exBoundary.data ⟨0, 22⟩ = none ∧
      computeDefinition exBoundary.data ⟨0, 21⟩ = some ⟨⟨0, 13⟩, ⟨0, 22⟩⟩ ∧
      computeDefinition exBoundary.data ⟨0, 24⟩ = none :=
  ⟨C6_boundary_exclusivity (by decide) (by decide) (by decide) (by decide),
    by decide, by decide⟩

/-- Claim C1: variable lookup rule — at a position inside a variable
reference token carrying name NAME (and inside no stage-alias span, no
COPY --from value span and no declaration-name span), computeDefinition
returns the name range of the last VariableDefinition in document order
whose name equals NAME and whose name position is strictly before the
query position; when no such definition exists the filtered list is empty
and the result is the not-found value none. -/
theorem C1_variable_lookup_rule {text : Chars} {pos : Pos} {l : Nat} {tk : VarTok}
    (h1 : ∀ lab ∈ buildStageIndex (tokenize text), inLabel pos lab = false)
    (h2 : ∀ fv ∈ fromValues (tokenize text), inSpan fv.1 fv.2.1 fv.2.2.1 pos = false)
    (h3 : ∀ d ∈ buildVariableIndex (tokenize text),
        inSpan d.line d.nameStart d.nameEnd pos = false)
    (h4 : (l, tk) ∈ allToks (tokenize text))
    (h5 : inSpan l tk.s tk.e pos = true) :
    computeDefinition text pos =
      Option.map defRange
        (((buildVariableIndex (tokenize text)).filter
          (fun d => d.name == tk.name && posLt ⟨d.line, d.nameStart⟩ pos)).getLast?) := by
  have hstage : (buildStageIndex (tokenize text)).find? (inLabel pos) = none := by
    rw [List.find?_eq_none]
    intro lab hl
    simp [h1 lab hl]
  have hfrom : copyFromValueAt (tokenize text) pos = none := by
    unfold copyFromValueAt
    rw [Option.map_eq_none', List.find?_eq_none]
    intro fv hfv
    simp [h2 fv hfv]
  have hdef : defOccurrenceAt (buildVariableIndex (tokenize text)) pos = none := by
    unfold defOccurrenceAt
    rw [Option.map_eq_none', List.find?_eq_none]
    intro d hd
    simp [h3 d hd]
  have htokf : tokOccurrenceAt (tokenize text) pos = some tk.name := by
    unfold tokOccurrenceAt
    have hsome : ((allToks (tokenize text)).find?
        (fun q => inSpan q.1 q.2.s q.2.e pos)).isSome = true :=
      List.find?_isSome.mpr ⟨(l, tk), h4, h5⟩
    obtain ⟨q, hq⟩ := Option.isSome_iff_exists.mp hsome
    have hmem := List.mem_of_find?_eq_some hq
    have hp := List.find?_some hq
    have hpw : List.Pairwise atRel (allToks (tokenize text)) := by
      rw [tokenize_eq]; exact allToks_pairwise
    rw [inSpan_iff] at hp h5
    have hqe : q = (l, tk) := by
      apply pairwise_unique_of_mem hpw hmem h4
      · intro hcon
        simp only [atRel] at hcon
        rcases hcon with h | ⟨ha, hb⟩ <;> omega
      · intro hcon
        simp only [atRel] at hcon
        rcases hcon with h | ⟨ha, hb⟩ <;> omega
    rw [hqe] at hq
    rw [hq]
    rfl
  have hocc : occurrenceAt (buildVariableIndex (tokenize text)) (tokenize text) pos
      = some tk.name := by
    unfold occurrenceAt
    rw [hdef, htokf]
  rw [computeDefinition_var hstage hfrom hocc, lookupVar_eq_getLast]
  rfl

/-- Witness for C1 at the shadowing document "ENV x=1(newline)ENV
x=2(newline)RUN (dollar)x": the reference on line 2 resolves by the
lookup rule, and concretely to the nearer definition on line 1. -/
theorem C1_witness :
    ((2, (⟨4, 6, "x".data⟩ : VarTok)) ∈ allToks (tokenize exShadow.data)) ∧
      computeDefinition exShadow.data ⟨2, 5⟩ =
        Option.map defRange
          (((buildVariableIndex (tokenize exShadow.data)).filter
            (fun d => d.name == "x".data && posLt ⟨d.line, d.nameStart⟩ ⟨2, 5⟩)).getLast?) ∧
      computeDefinition exShadow.data ⟨2, 5⟩ = some ⟨⟨1, 4⟩, ⟨1, 5⟩⟩ :=
  ⟨by decide,
    @C1_variable_lookup_rule exShadow.data ⟨2, 5⟩ 2 ⟨4, 6, "x".data⟩
      (by decide) (by decide) (by decide) (by decide) (by decide),
    by decide⟩

/-- Claim C3: stage reference resolution is exact and case-sensitive — at
a position inside the value span of a --from= option word of a COPY
instruction, computeDefinition either returns the name range of a stage
label whose name equals the value text exactly, or returns not-found when
no stage label's name equals the value text (no partial or fuzzy match). -/
theorem C3_stage_reference_exact {text : Chars} {pos : Pos}
    {fv : Nat × Nat × Nat × Chars}
    (hfv : fv ∈ fromValues (tokenize text))
    (hpos : inSpan fv.1 fv.2.1 fv.2.2.1 pos = true) :
    (∃ lab ∈ buildStageIndex (tokenize text), lab.name = fv.2.2.2 ∧
        computeDefinition text pos = some (labRange lab))
    ∨ ((∀ lab ∈ buildStageIndex (tokenize text), lab.name ≠ fv.2.2.2) ∧
        computeDefinition text pos = none) := by
  obtain ⟨ins, hins, hkw, w, hw, hpre, hcs, hce⟩ := word_of_from hfv hpos
  rw [tokenize_eq] at hins
  have hnf : kwIs ins "FROM" = false := by
    cases hf : kwIs ins "FROM" with
    | false => rfl
    | true => exact (kw_conflict hkw hf (by decide)).elim
  have hstage : (buildStageIndex (tokenize text)).find? (inLabel pos) = none := by
    rw [tokenize_eq]
    exact stage_find_none_of_word hins hw ⟨hcs, hce⟩ hnf
  have hff : copyFromValueAt (tokenize text) pos = some fv.2.2.2 := by
    unfold copyFromValueAt
    have hsome : ((fromValues (tokenize text)).find?
        (fun q => inSpan q.1 q.2.1 q.2.2.1 pos)).isSome = true :=
      List.find?_isSome.mpr ⟨fv, hfv, hpos⟩
    obtain ⟨q, hq⟩ := Option.isSome_iff_exists.mp hsome
    have hmem := List.mem_of_find?_eq_some hq
    have hp := List.find?_some hq
    have hpwf : List.Pairwise frRel (fromValues (tokenize text)) := by
      rw [tokenize_eq]; exact fromValues_pairwise
    rw [inSpan_iff] at hp hpos
    have hqe : q = fv := by
      apply pairwise_unique_of_mem hpwf hmem hfv
      · intro hcon
        simp only [frRel] at hcon
        rcases hcon with h | ⟨ha, hb⟩ <;> omega
      · intro hcon
        simp only [frRel] at hcon
        rcases hcon with h | ⟨ha, hb⟩ <;> omega
    rw [hqe] at hq
    rw [hq]
    rfl
  rw [computeDefinition_from hstage hff]
  cases hfind : (buildStageIndex (tokenize text)).find? (fun st => st.name == fv.2.2.2) with
  | none =>
    refine Or.inr ⟨?_, rfl⟩
    intro lab hlab
    have := List.find?_eq_none.mp hfind lab hlab
    simpa using this
  | some lab =>
    refine Or.inl ⟨lab, List.mem_of_find?_eq_some hfind, ?_, rfl⟩
    have := List.find?_some hfind
    simpa using this

/-- Witness for C3 at the mismatch document: the --from value
"bootstrap2" matches no stage label exactly, so the right disjunct holds
and the query is not-found. -/
theorem C3_witness :
    ((2, 12, 22, "bootstrap2".data) ∈ fromValues (tokenize exMismatch.data)) ∧
      ((∃ lab ∈ buildStageIndex (tokenize exMismatch.data),
          lab.name = "bootstrap2".data ∧
          computeDefinition exMismatch.data ⟨2, 16⟩ = some (labRange lab))
        ∨ ((∀ lab ∈ buildStageIndex (tokenize exMismatch.data),
            lab.name ≠ "bootstrap2".data) ∧
          computeDefinition exMismatch.data ⟨2, 16⟩ = none)) :=
  ⟨by decide,
    @C3_stage_reference_exact exMismatch.data ⟨2, 16⟩ (2, 12, 22, "bootstrap2".data)
      (by decide) (by decide)⟩

/-- Claim C9: positional arguments never resolve as stage references — at
a position inside an ordinary positional argument word of a COPY
instruction (a word not beginning with the option marker and containing no
dollar sign), computeDefinition returns not-found even when the word's
text equals the name of an existing stage label; only the value of the
--from= option triggers stage lookup. -/
theorem C9_positional_not_stage {text : Chars} {pos : Pos} {ins : Instr} {w : Word}
    {lab : StageLabel}
    (hins : ins ∈ tokenize text) (hkw : kwIs ins "COPY" = true)
    (hw : (pos.line, w) ∈ argWordsOf ins)
    (hc : w.start ≤ pos.character ∧ pos.character < wordEnd w)
    (hnp : "--from=".data.isPrefixOf w.text = false)
    (hnd : ∀ c ∈ w.text, c ≠ '$')
    (_hlab : lab ∈ buildStageIndex (tokenize text)) (_hname : lab.name = w.text) :
    computeDefinition text pos = none := by
  rw [tokenize_eq] at hins
  have hnFROM : kwIs ins "FROM" = false := by
    cases hf : kwIs ins "FROM" with
    | false => rfl
    | true => exact (kw_conflict hkw hf (by decide)).elim
  have hnARG : kwIs ins "ARG" = false := by
    cases hf : kwIs ins "ARG" with
    | false => rfl
    | true => exact (kw_conflict hkw hf (by decide)).elim
  have hnENV : kwIs ins "ENV" = false := by
    cases hf : kwIs ins "ENV" with
    | false => rfl
    | true => exact (kw_conflict hkw hf (by decide)).elim
  apply computeDefinition_notFound
  · rw [tokenize_eq]
    exact stage_find_none_of_word hins hw hc hnFROM
  · rw [tokenize_eq]
    exact from_none_of_word hins hw hc (Or.inr hnp)
  · unfold occurrenceAt
    have hdef : defOccurrenceAt (buildVariableIndex (tokenize text)) pos = none := by
      rw [tokenize_eq]
      exact defOcc_none_of_word hins hw hc ⟨hnARG, hnENV⟩
    have htok : tokOccurrenceAt (tokenize text) pos = none := by
      rw [tokenize_eq]
      exact tokOcc_none_of_word hins hw hc hnd
    rw [hdef, htok]

/-- Witness for C9 at "FROM node AS bootstrap(newline)COPY bootstrap
/git/build/": the positional word bootstrap on line 1 matches the stage
alias textually, yet character 10 inside it is not-found. -/
theorem C9_witness :
    ((⟨"COPY".data, 1, [(1, [⟨5, "bootstrap".data⟩, ⟨15, "/git/build/".data⟩])]⟩ : Instr)
        ∈ tokenize exPositional.data) ∧
      computeDefinition exPositional.data ⟨1, 10⟩ = none :=
  ⟨by decide,
    @C9_positional_not_stage exPositional.data ⟨1, 10⟩
      ⟨"COPY".data, 1, [(1, [⟨5, "bootstrap".data⟩, ⟨15, "/git/build/".data⟩])]⟩
      ⟨5, "bootstrap".data⟩ ⟨"bootstrap".data, 0, 13, 22⟩
      (by decide) (by decide) (by decide) (by decide) (by decide) (by decide)
      (by decide) (by decide)⟩

/-- Counterexample to C10 as stated: in "ARG var" the declaration name
occupies R = [4,7) on line 0, position (0,4) lies inside R (half-open),
yet computeDefinition returns none, not R — the strictly-before lookup
rule excludes the declaration itself at its own start character. -/
theorem C10_counterexample :
    ((⟨"var".data, 0, 4, 7, none⟩ : VarDef)
        ∈ buildVariableIndex (tokenize exArgOnly.data))
    ∧ inSpan 0 4 7 ⟨0, 4⟩ = true
    ∧ computeDefinition exArgOnly.data ⟨0, 4⟩ = none := by
  decide

/-- Claim C10 (amended): variable declaration self-location holds at every
position strictly inside the name range past its first character — for a
VariableDefinition with name range R, computeDefinition at any position
with R.start.character < character < R.end.character on R's line returns R
itself; at exactly the start character the strictly-before rule makes the
declaration invisible to itself. -/
theorem C10_declaration_self_location {text : Chars} {pos : Pos} {d : VarDef}
    (hd : d ∈ buildVariableIndex (tokenize text))
    (hline : pos.line = d.line)
    (hlo : d.nameStart < pos.character) (hhi : pos.character < d.nameEnd) :
    computeDefinition text pos = some (defRange d) := by
  have hspan : inSpan d.line d.nameStart d.nameEnd pos = true :=
    inSpan_iff.mpr ⟨hline, by omega, hhi⟩
  obtain ⟨ins, hins, hkw, w, hw, hcs, hce⟩ := word_of_def hd hspan
  rw [tokenize_eq] at hins
  have hnFROM : kwIs ins "FROM" = false := by
    cases hf : kwIs ins "FROM" with
    | false => rfl
    | true =>
      rcases hkw with h | h
      · exact (kw_conflict h hf (by decide)).elim
      · exact (kw_conflict h hf (by decide)).elim
  have hnCOPY : kwIs ins "COPY" = false := by
    cases hf : kwIs ins "COPY" with
    | false => rfl
    | true =>
      rcases hkw with h | h
      · exact (kw_conflict h hf (by decide)).elim
      · exact (kw_conflict h hf (by decide)).elim
  have hstage : (buildStageIndex (tokenize text)).find? (inLabel pos) = none := by
    rw [tokenize_eq]
    exact stage_find_none_of_word hins hw ⟨hcs, hce⟩ hnFROM
  have hfrom : copyFromValueAt (tokenize text) pos = none := by
    rw [tokenize_eq]
    exact from_none_of_word hins hw ⟨hcs, hce⟩ (Or.inl hnCOPY)
  have hpwv : List.Pairwise varRel (buildVariableIndex (tokenize text)) := by
    rw [tokenize_eq]; exact varIndex_pairwise
  have hdefocc : defOccurrenceAt (buildVariableIndex (tokenize text)) pos
      = some d.name := by
    unfold defOccurrenceAt
    have hsome : ((buildVariableIndex (tokenize text)).find?
        (fun x => inSpan x.line x.nameStart x.nameEnd pos)).isSome = true :=
      List.find?_isSome.mpr ⟨d, hd, hspan⟩
    obtain ⟨d2, hd2⟩ := Option.isSome_iff_exists.mp hsome
    have hmem := List.mem_of_find?_eq_some hd2
    have hp := List.find?_some hd2
    rw [inSpan_iff] at hp
    have hqe : d2 = d := by
      apply pairwise_unique_of_mem hpwv hmem hd
      · intro hcon
        simp only [varRel] at hcon
        rcases hcon with h | ⟨ha, hb⟩ <;> omega
      · intro hcon
        simp only [varRel] at hcon
        rcases hcon with h | ⟨ha, hb⟩ <;> omega
    rw [hqe] at hd2
    rw [hd2]
    rfl
  have hocc : occurrenceAt (buildVariableIndex (tokenize text)) (tokenize text) pos
      = some d.name := by
    unfold occurrenceAt
    rw [hdefocc]
  rw [computeDefinition_var hstage hfrom hocc, lookupVar_eq_getLast]
  obtain ⟨l1, l2, hsplit⟩ := List.append_of_mem hd
  have hrest : ∀ x ∈ l2, varRel d x := by
    rw [hsplit] at hpwv
    have h1 := (List.pairwise_append.mp hpwv).2.1
    exact (List.pairwise_cons.mp h1).1
  have hdq : varQualifies d.name pos d = true := by
    unfold varQualifies
    rw [Bool.and_eq_true]
    refine ⟨beq_self_eq_true _, ?_⟩
    rw [posLt_mk_iff]
    exact Or.inr ⟨hline.symm, hlo⟩
  have hl2f : ∀ x ∈ l2, ¬(varQualifies d.name pos x = true) := by
    intro x hx hq
    unfold varQualifies at hq
    rw [Bool.and_eq_true, posLt_mk_iff] at hq
    have hr := hrest x hx
    simp only [varRel] at hr
    rcases hr with hr | ⟨hr1, hr2⟩ <;> rcases hq.2 with hq2 | ⟨hq21, hq22⟩ <;> omega
  rw [hsplit, List.filter_append, List.filter_cons, hdq, if_pos rfl,
    List.filter_eq_nil_iff.mpr hl2f, List.getLast?_concat]
  rfl

/-- Witness for C10 (amended) at "ENV var=value var2=value2(newline)RUN
echo (dollar-brace)var(brace) (dollar-brace)var2(brace)": position (0,16)
strictly inside the var2 name range [14,18) returns that very range. -/
theorem C10_witness :
    ((⟨"var2".data, 0, 14, 18, some (19, 25)⟩ : VarDef)
        ∈ buildVariableIndex (tokenize exTwoVars.data)) ∧
      computeDefinition exTwoVars.data ⟨0, 16⟩ =
        some (defRange ⟨"var2".data, 0, 14, 18, some (19, 25)⟩) :=
  ⟨by decide,
    @C10_declaration_self_location exTwoVars.data ⟨0, 16⟩
      ⟨"var2".data, 0, 14, 18, some (19, 25)⟩
      (by decide) (by decide) (by decide) (by decide)⟩

end Dockerfile
